import Mathlib

/-!
Verification development for the photo-quality-ranking engine.

The repository ships the React frontend (`frontend/src`), the technical
documentation (`docs/TECHNICAL.md`, `README.md`) and a setup script; the
Python engine itself (`photo_ranker/`: metadata sync, clustering, ranking,
person matching, `config.py`) is not part of the source tree.  Definitions
for those components are therefore modelled from the specification, as
marked in their doc comments.  Frontend behaviour (upload-page filtering,
status types) and documented configuration constants are embedded directly
from the source files.

All similarity scores, quality signals and weights are modelled as
rationals; embeddings are lists of rationals compared by plain dot product
(the spec requires L2-normalised embeddings, so cosine similarity is the
dot product).
-/

namespace PhotoRanker

/-- Dot product of two embedding vectors. -/
def dot : List ℚ → List ℚ → ℚ
  | a :: as, b :: bs => a * b + dot as bs
  | _, _ => 0

/-- Modelled from the spec: cosine similarity of L2-normalised embeddings is
computed as a plain dot product (spec §3 Invariants). -/
def similarity (a b : List ℚ) : ℚ := dot a b

/-! ## Album sync status (frontend/src/lib/types.ts, lines 10-13)

The `AlbumStatus` interface returned by the query-sync-status endpoint
(`getAlbumStatus`) declares
`status: "pending" | "processing" | "done" | "error" | "not_found"`. -/

/-- The status union of the `AlbumStatus` interface in
`frontend/src/lib/types.ts` (the return type of `getAlbumStatus`). -/
inductive AlbumSyncStatus
  | pending
  | processing
  | done
  | error
  | not_found
deriving DecidableEq, Repr

/-- The five members of the status union, in declaration order. -/
def albumSyncStatusValues : List AlbumSyncStatus :=
  [.pending, .processing, .done, .error, .not_found]

/-! ## Configuration constants (docs/TECHNICAL.md, Config section)

"Person matching: `SIMILARITY_THRESHOLD` (0.45) for clustering and linking;
`FIND_PERSON_SIMILARITY_THRESHOLD` (0.28) for find-person;
`MIN_FACE_SIZE_PX` (30)." -/

/-- Constant from `config.py` as documented in `docs/TECHNICAL.md`: used for
both clustering and linking. -/
def SIMILARITY_THRESHOLD : ℚ := 45/100

/-- Constant from `config.py` as documented in `docs/TECHNICAL.md`: used for
find-person confident matches. -/
def FIND_PERSON_SIMILARITY_THRESHOLD : ℚ := 28/100

/-- The threshold the clusterer uses to group faces within an album. -/
def clusteringThreshold : ℚ := SIMILARITY_THRESHOLD

/-- The threshold `link` uses to attach an album cluster to a global person
(per `docs/TECHNICAL.md` it is the same `SIMILARITY_THRESHOLD` constant). -/
def linkingThreshold : ℚ := SIMILARITY_THRESHOLD

/-! ## Upload page (src/unnamed/part_007, `UploadPage`) -/

/-- A browser `File` as far as the upload page inspects it: a name and a
MIME type. -/
structure UFile where
  name : String
  type : String
deriving DecidableEq, Repr

/-- The `ACCEPTED_TYPES` list of the upload page. -/
def ACCEPTED_TYPES : List String :=
  ["image/jpeg", "image/png", "image/webp", "image/bmp"]

/-- Events that mutate the `files` state of the upload page. -/
inductive UploadEvent
  | drop (dropped : List UFile)
  | select (selected : List UFile)
  | removeAt (i : ℕ)
  | clearAll
  | uploadSuccess
deriving Repr

/-- The drop handler `handleDrop`: filter the dropped files against `ACCEPTED_TYPES`; if any
survive, append them to the current selection. -/
def handleDrop (files dropped : List UFile) : List UFile :=
  let droppedFiles := dropped.filter (fun f => ACCEPTED_TYPES.contains f.type)
  if 0 < droppedFiles.length then files ++ droppedFiles else files

/-- The picker handler `handleFileSelect`: filter the picked files against `ACCEPTED_TYPES` and
append them to the current selection. -/
def handleFileSelect (files selected : List UFile) : List UFile :=
  files ++ selected.filter (fun f => ACCEPTED_TYPES.contains f.type)

/-- The remove button `removeFile`: `prev.filter((_, i) => i !== index)`. -/
def removeFile (files : List UFile) (i : ℕ) : List UFile :=
  (files.enum.filter (fun p => !(p.1 == i))).map Prod.snd

/-- One transition of the upload page's `files` state. `clearAll` is the
"Clear all" button; `uploadSuccess` is `setFiles([])` after a successful
upload. -/
def uploadStep (files : List UFile) : UploadEvent → List UFile
  | .drop dropped => handleDrop files dropped
  | .select selected => handleFileSelect files selected
  | .removeAt i => removeFile files i
  | .clearAll => []
  | .uploadSuccess => []

/-- The `files` state after a sequence of events, starting from the initial
`useState<File[]>([])`. -/
def uploadRun (events : List UploadEvent) : List UFile :=
  events.foldl uploadStep []

/-! ## Metadata store (modelled from the spec)

`photo_ranker/metadata.py` is not in the source tree; the incremental cache
is modelled from spec §4.1. -/

/-- Modelled from the spec: a per-face record of the metadata cache
(spec §3 FaceRecord). -/
structure FaceRecord where
  face_index : ℕ
  embedding : List ℚ
  facing_score : ℚ
  confidence : ℚ
  size_px : ℚ
  smile_score : ℚ
deriving DecidableEq, Repr

/-- Modelled from the spec: one cache entry per image (spec §3
ImageMetadata). -/
structure ImageMetadata where
  filename : String
  fingerprint : String
  blur_score : ℚ
  faces : List FaceRecord
deriving DecidableEq, Repr

/-- Modelled from the spec: a file as the sync sees it — its name, its
cheap fingerprint, and (abstractly) its content. -/
structure DirFile where
  filename : String
  fingerprint : String
  content : ℕ
deriving DecidableEq, Repr

/-- The persisted per-album cache: a list of entries keyed by filename. -/
abbrev Cache := List ImageMetadata

/-- The quality-signal extractor, abstracted: from a file it produces the
image's blur score and its face records (spec §4.2). -/
abbrev Extractor := DirFile → ℚ × List FaceRecord

/-- Look an entry up by filename. -/
def cacheLookup (cache : Cache) (name : String) : Option ImageMetadata :=
  cache.find? (fun e => e.filename == name)

/-- A freshly extracted entry for a file: the caller fills in filename and
fingerprint, the extractor supplies blur and faces (spec §4.2 contract). -/
def freshEntry (extract : Extractor) (f : DirFile) : ImageMetadata :=
  { filename := f.filename
  , fingerprint := f.fingerprint
  , blur_score := (extract f).1
  , faces := (extract f).2 }

/-- Modelled from the spec: per-file sync step (spec §4.1). If a cache entry
with the same fingerprint exists it is reused unchanged; otherwise the
extractor runs. The boolean records whether an extraction happened. -/
def syncFile (extract : Extractor) (cache : Cache) (f : DirFile) :
    ImageMetadata × Bool :=
  match cacheLookup cache f.filename with
  | some e =>
    if e.fingerprint == f.fingerprint then (e, false)
    else (freshEntry extract f, true)
  | none => (freshEntry extract f, true)

/-- Result of one sync run: the new cache, the filenames that were
(re-)extracted, the filenames removed because the file left the directory,
and the number of extractions performed. -/
structure SyncResult where
  cache : Cache
  updated : List String
  removed : List String
  extractions : ℕ
deriving Repr

/-- Modelled from the spec: `sync(album_dir)` over the current directory
listing (spec §4.1): every present file gets an entry (reused when the
fingerprint matches, re-extracted otherwise); entries of absent files are
dropped. -/
def sync (extract : Extractor) (dir : List DirFile) (cache : Cache) :
    SyncResult :=
  let results := dir.map (syncFile extract cache)
  { cache := results.map Prod.fst
  , updated := (results.filter Prod.snd).map (fun r => r.1.filename)
  , removed :=
      ((cache.filter
        (fun e => !(dir.any (fun f => f.filename == e.filename)))).map
        ImageMetadata.filename)
  , extractions := results.countP Prod.snd }

/-! ## Ranker (modelled from the spec)

`photo_ranker/ranker.py` is not in the source tree; scoring and ranking are
modelled from spec §4.5. -/

/-- Modelled from the spec: externally supplied weights and thresholds
(spec §4.5). -/
structure Weights where
  w_smile : ℚ
  w_facing : ℚ
  w_sharp : ℚ
  w_group : ℚ
  facing_good : ℚ
  conf_good : ℚ
deriving DecidableEq, Repr

/-- Modelled from the spec: single-subject score
`w_smile*smile + w_facing*facing + w_sharp*normalized_blur` (spec §4.5). -/
def singleScore (w : Weights) (face : FaceRecord) (normBlur : ℚ) : ℚ :=
  w.w_smile * face.smile_score + w.w_facing * face.facing_score +
    w.w_sharp * normBlur

/-- Modelled from the spec: a face is "good" when facing score and
confidence both exceed their thresholds (spec §4.5 Group). -/
def goodFace (w : Weights) (f : FaceRecord) : Bool :=
  decide (w.facing_good < f.facing_score) && decide (w.conf_good < f.confidence)

/-- Modelled from the spec: group score
`w_group*fraction_of_faces_good + w_sharp*normalized_blur` (spec §4.5). -/
def groupScore (w : Weights) (faces : List FaceRecord) (normBlur : ℚ) : ℚ :=
  w.w_group * ((faces.countP (goodFace w) : ℚ) / (faces.length : ℚ)) +
    w.w_sharp * normBlur

/-- Does this face belong to the target cluster?  The target is given by its
member set of `(filename, face_index)` references (spec §3 PersonCluster). -/
def isTargetFace (members : List (String × ℕ)) (fname : String)
    (f : FaceRecord) : Bool :=
  members.contains (fname, f.face_index)

/-- Modelled from the spec: score one image — single-subject when the image
has exactly one face, group otherwise (spec §4.5). -/
def photoScore (w : Weights) (img : ImageMetadata) : ℚ :=
  match img.faces with
  | [f] => singleScore w f img.blur_score
  | fs => groupScore w fs img.blur_score

/-- The ranking order: higher score first; on equal scores, filename
ascending. -/
def rankLE (x y : String × ℚ) : Prop :=
  y.2 < x.2 ∨ (x.2 = y.2 ∧ x.1 ≤ y.1)

instance : DecidableRel rankLE := fun x y => by
  unfold rankLE; exact inferInstance

instance : IsTotal (String × ℚ) rankLE where
  total x y := by
    unfold rankLE
    rcases lt_trichotomy x.2 y.2 with h | h | h
    · exact Or.inr (Or.inl h)
    · rcases le_total x.1 y.1 with h' | h'
      · exact Or.inl (Or.inr ⟨h, h'⟩)
      · exact Or.inr (Or.inr ⟨h.symm, h'⟩)
    · exact Or.inl (Or.inl h)

instance : IsTrans (String × ℚ) rankLE where
  trans x y z hxy hyz := by
    unfold rankLE at *
    rcases hxy with h1 | ⟨e1, l1⟩
    · rcases hyz with h2 | ⟨e2, _⟩
      · exact Or.inl (h2.trans h1)
      · exact Or.inl (e2 ▸ h1)
    · rcases hyz with h2 | ⟨e2, l2⟩
      · exact Or.inl (e1 ▸ h2)
      · exact Or.inr ⟨e1.trans e2, l1.trans l2⟩

/-- Modelled from the spec: `rank(album_metadata, target, top_k)`
(spec §4.5): select the images with at least one target face, score each
from cached signals, sort descending by score with filename-ascending tie
break, truncate to `top_k`. -/
def rank (w : Weights) (meta : List ImageMetadata)
    (members : List (String × ℕ)) (top_k : ℕ) : List (String × ℚ) :=
  let selected := meta.filter
    (fun img => img.faces.any (isTargetFace members img.filename))
  let scored := selected.map (fun img => (img.filename, photoScore w img))
  (List.insertionSort rankLE scored).take top_k

/-- Strictly ahead in the ranking order: strictly higher score, or equal
score and strictly smaller filename. -/
def ranksAhead (q p : String × ℚ) : Prop :=
  p.2 < q.2 ∨ (q.2 = p.2 ∧ q.1 < p.1)

instance : DecidableRel ranksAhead := fun q p => by
  unfold ranksAhead; exact inferInstance

/-- The rank position of photo `p` relative to a pool of other photos: how
many of them are strictly ahead of `p` in the ranking order. -/
def rankPosition (others : List (String × ℚ)) (p : String × ℚ) : ℕ :=
  others.countP (fun q => decide (ranksAhead q p))

/-! ## Identity matcher / global registry (modelled from the spec)

`global_people.py` and the find-person code in `albums.py` are not in the
source tree; `find` is modelled from spec §4.4 and the find-person flow in
`docs/TECHNICAL.md`. -/

/-- A search candidate: a global person, or an album cluster representative
with a synthetic `album:<id>:<index>` identifier (spec §4.4). -/
structure Candidate where
  id : String
  name : String
  embedding : List ℚ
deriving DecidableEq, Repr

/-- A candidate decorated with its creation index and its similarity to the
query embedding. -/
structure Scored where
  idx : ℕ
  cand : Candidate
  sim : ℚ
deriving DecidableEq, Repr

/-- Pair every candidate with its creation index and similarity. -/
def scoreAll (query : List ℚ) (cands : List Candidate) : List Scored :=
  cands.enum.map
    (fun p => { idx := p.1, cand := p.2, sim := similarity query p.2.embedding })

/-- Candidate order for `find`: higher similarity first; on ties, the
earliest-created identity first. -/
def candLE (x y : Scored) : Prop :=
  y.sim < x.sim ∨ (x.sim = y.sim ∧ x.idx ≤ y.idx)

instance : DecidableRel candLE := fun x y => by
  unfold candLE; exact inferInstance

instance : IsTotal Scored candLE where
  total x y := by
    unfold candLE
    rcases lt_trichotomy x.sim y.sim with h | h | h
    · exact Or.inr (Or.inl h)
    · rcases Nat.le_total x.idx y.idx with h' | h'
      · exact Or.inl (Or.inr ⟨h, h'⟩)
      · exact Or.inr (Or.inr ⟨h.symm, h'⟩)
    · exact Or.inl (Or.inl h)

instance : IsTrans Scored candLE where
  trans x y z hxy hyz := by
    unfold candLE at *
    rcases hxy with h1 | ⟨e1, l1⟩
    · rcases hyz with h2 | ⟨e2, _⟩
      · exact Or.inl (h2.trans h1)
      · exact Or.inl (e2 ▸ h1)
    · rcases hyz with h2 | ⟨e2, l2⟩
      · exact Or.inl (e1 ▸ h2)
      · exact Or.inr ⟨e1.trans e2, l1.trans l2⟩

/-- The result of `find` (spec §4.4, `FindPersonResult` in
`frontend/src/lib/types.ts`). -/
structure FindResult where
  matched : Bool
  person : Option Candidate
  best_similarity : ℚ
  candidates : List Scored
deriving Repr

/-- Modelled from the spec: `find(query_embedding, threshold, top_k)`
(spec §4.4): rank every candidate by similarity (ties broken by
earliest-created identity); a confident match when the best similarity
reaches the threshold, otherwise the `top_k` best candidates for manual
disambiguation. -/
def find (query : List ℚ) (threshold : ℚ) (top_k : ℕ)
    (cands : List Candidate) : FindResult :=
  match List.insertionSort candLE (scoreAll query cands) with
  | [] => { matched := false, person := none, best_similarity := 0, candidates := [] }
  | best :: rest =>
    if threshold ≤ best.sim then
      { matched := true
      , person := some best.cand
      , best_similarity := best.sim
      , candidates := (best :: rest).take top_k }
    else
      { matched := false
      , person := none
      , best_similarity := best.sim
      , candidates := (best :: rest).take top_k }

/-- Error conditions of find-person-by-photo (spec §4.4, §7). -/
inductive FindError
  | noFaceFound
deriving DecidableEq, Repr

/-- Modelled from the spec: the most prominent (largest) detected face
(spec §4.4 policy for multi-face query images). -/
def largestFace (faces : List FaceRecord) : Option FaceRecord :=
  faces.foldl
    (fun acc f =>
      match acc with
      | none => some f
      | some g => if g.size_px < f.size_px then some f else some g)
    none

/-- Modelled from the spec: find-person-by-photo over the faces detected in
the query image (spec §4.4): zero detected faces fail with a distinct
"no face found" condition; otherwise the largest face's embedding is the
query. -/
def findPersonByPhoto (queryFaces : List FaceRecord) (threshold : ℚ)
    (top_k : ℕ) (cands : List Candidate) : Except FindError FindResult :=
  match largestFace queryFaces with
  | none => Except.error FindError.noFaceFound
  | some f => Except.ok (find f.embedding threshold top_k cands)

/-! ## Identity clusterer (modelled from the spec)

`photo_ranker/unique_faces.py` is not in the source tree; the greedy
clustering is modelled from spec §4.3. -/

/-- Modelled from the spec: a face reference as the clusterer consumes it
(spec §4.3): its location, its embedding, and its bounding-box size used for
representative selection. -/
structure ClusterFace where
  filename : String
  face_index : ℕ
  embedding : List ℚ
  size_px : ℚ
deriving DecidableEq, Repr

/-- Modelled from the spec: an album person cluster — its members and its
representative face (spec §3 PersonCluster). -/
structure PersonCluster where
  members : List ClusterFace
  rep : ClusterFace
deriving DecidableEq, Repr

/-- The index of the existing cluster whose representative is most similar
to `emb`, provided that best similarity reaches the threshold (earliest
cluster wins ties). -/
def bestClusterIdx (th : ℚ) (emb : List ℚ) (cs : List PersonCluster) :
    Option ℕ :=
  let sims := cs.enum.map (fun p => (p.1, similarity emb p.2.rep.embedding))
  match sims.foldl
    (fun acc p =>
      match acc with
      | none => some p
      | some q => if q.2 < p.2 then some p else some q)
    none with
  | none => none
  | some best => if th ≤ best.2 then some best.1 else none

/-- Add a face to a cluster, recomputing the representative: the member with
the largest bounding box (the earlier member wins ties). -/
def addFace (c : PersonCluster) (f : ClusterFace) : PersonCluster :=
  { members := c.members ++ [f]
  , rep := if c.rep.size_px < f.size_px then f else c.rep }

/-- Add a face to the cluster at position `i`. -/
def setAt : List PersonCluster → ℕ → ClusterFace → List PersonCluster
  | [], _, _ => []
  | c :: cs, 0, f => addFace c f :: cs
  | c :: cs, i + 1, f => c :: setAt cs i f

/-- Modelled from the spec: one step of the greedy clustering (spec §4.3):
assign the face to the most similar existing cluster when the best
similarity reaches the threshold, else open a new cluster with this face as
its initial representative. -/
def clusterStep (th : ℚ) (cs : List PersonCluster) (f : ClusterFace) :
    List PersonCluster :=
  match bestClusterIdx th f.embedding cs with
  | some i => setAt cs i f
  | none => cs ++ [{ members := [f], rep := f }]

/-- Modelled from the spec: `cluster(album_metadata)` (spec §4.3): process
the faces in their given stable order, growing the cluster list; clusters
are indexed by creation order. -/
def cluster (th : ℚ) (faces : List ClusterFace) : List PersonCluster :=
  faces.foldl (clusterStep th) []

/-! # Theorems -/

/-! ## Sync status (C6) -/

/-- C6 counterexample: the status union returned by the query-sync-status
operation (`AlbumStatus` in `frontend/src/lib/types.ts`) contains a fifth
value `not_found` that is not among pending, processing, done, error. -/
theorem albumSyncStatus_not_found_counterexample :
    AlbumSyncStatus.not_found ∈ albumSyncStatusValues ∧
      AlbumSyncStatus.not_found ∉
        [AlbumSyncStatus.pending, AlbumSyncStatus.processing,
          AlbumSyncStatus.done, AlbumSyncStatus.error] := by
  decide

/-- C6 (amended): every status value returned by the query-sync-status
operation is one of exactly the five values pending, processing, done,
error, not_found. -/
theorem albumSyncStatus_values_complete :
    ∀ s : AlbumSyncStatus, s ∈ albumSyncStatusValues := by
  intro s
  cases s <;> decide

/-! ## Thresholds (C7) -/

/-- C7 counterexample: per `docs/TECHNICAL.md`, clustering and linking share
the single constant `SIMILARITY_THRESHOLD` (0.45), so the linking threshold
is neither distinct from nor greater than the clustering threshold. -/
theorem linkingThreshold_counterexample :
    linkingThreshold = clusteringThreshold ∧
      ¬ clusteringThreshold < linkingThreshold :=
  ⟨rfl, lt_irrefl _⟩

/-- C7 (amended): the linking threshold equals the clustering threshold
(both are the shared constant `SIMILARITY_THRESHOLD` = 0.45); the distinct
matching threshold is the find-person threshold (0.28), which is looser
(strictly smaller), not tighter. -/
theorem thresholds_amended :
    linkingThreshold = clusteringThreshold ∧
      FIND_PERSON_SIMILARITY_THRESHOLD < clusteringThreshold := by
  refine ⟨rfl, ?_⟩
  norm_num [FIND_PERSON_SIMILARITY_THRESHOLD, clusteringThreshold,
    SIMILARITY_THRESHOLD]

/-! ## No face found (C5) -/

/-- C5: when zero faces are detected in the query image,
find-person-by-photo fails with the distinct "no face found" error
condition instead of returning any (no-)match result. -/
theorem findPersonByPhoto_no_face (threshold : ℚ) (top_k : ℕ)
    (cands : List Candidate) :
    findPersonByPhoto [] threshold top_k cands =
      Except.error FindError.noFaceFound := rfl

/-! ## Clustering determinism (C9) -/

/-- C9: clustering is deterministic — two runs of `cluster` over the same
face list in the same order with the same threshold produce identical
output: the same cluster assignments, the same representatives, in the same
creation order (the algorithm is a pure function of its input and uses no
randomness). -/
theorem cluster_deterministic (th : ℚ) (faces₁ faces₂ : List ClusterFace)
    (h : faces₁ = faces₂) : cluster th faces₁ = cluster th faces₂ :=
  h ▸ rfl

/-- Witness for `cluster_deterministic` at a concrete face list. -/
theorem cluster_deterministic_witness :
    ([⟨"a.jpg", 0, [1], 10⟩] : List ClusterFace) = [⟨"a.jpg", 0, [1], 10⟩] ∧
      cluster clusteringThreshold [⟨"a.jpg", 0, [1], 10⟩] =
        cluster clusteringThreshold [⟨"a.jpg", 0, [1], 10⟩] :=
  ⟨rfl, cluster_deterministic clusteringThreshold _ _ rfl⟩

/-! ## Upload page invariant (C10) -/

/-- Files surviving the accepted-types filter have accepted MIME types. -/
theorem mem_filter_accepted (l : List UFile) (f : UFile)
    (h : f ∈ l.filter (fun g => ACCEPTED_TYPES.contains g.type)) :
    f.type ∈ ACCEPTED_TYPES :=
  List.elem_iff.mp (List.mem_filter.mp h).2

/-- Removing by index only ever drops files from the selection. -/
theorem mem_removeFile (files : List UFile) (i : ℕ) (f : UFile)
    (h : f ∈ removeFile files i) : f ∈ files := by
  have h1 : (files.enum.filter (fun p => !(p.1 == i))).Sublist files.enum :=
    List.filter_sublist _
  have h2 := h1.map Prod.snd
  rw [List.enum_map_snd] at h2
  exact h2.subset h

/-- One upload-page event preserves the accepted-types invariant of the
selection. -/
theorem uploadStep_accepted (files : List UFile) (e : UploadEvent)
    (h : ∀ f ∈ files, f.type ∈ ACCEPTED_TYPES) :
    ∀ f ∈ uploadStep files e, f.type ∈ ACCEPTED_TYPES := by
  intro f hf
  cases e with
  | drop dropped =>
    simp only [uploadStep, handleDrop] at hf
    split at hf
    · rcases List.mem_append.mp hf with h1 | h2
      · exact h f h1
      · exact mem_filter_accepted dropped f h2
    · exact h f hf
  | select selected =>
    simp only [uploadStep, handleFileSelect] at hf
    rcases List.mem_append.mp hf with h1 | h2
    · exact h f h1
    · exact mem_filter_accepted selected f h2
  | removeAt i => exact h f (mem_removeFile files i f hf)
  | clearAll => simp [uploadStep] at hf
  | uploadSuccess => simp [uploadStep] at hf

/-- The invariant is preserved along any event sequence. -/
theorem uploadFoldl_accepted (events : List UploadEvent) :
    ∀ files, (∀ f ∈ files, f.type ∈ ACCEPTED_TYPES) →
      ∀ f ∈ events.foldl uploadStep files, f.type ∈ ACCEPTED_TYPES := by
  induction events with
  | nil => intro files h; simpa using h
  | cons e es ih =>
    intro files h
    exact ih (uploadStep files e) (uploadStep_accepted files e h)

/-- C10: starting from the empty selection, after any sequence of
drag-and-drop, file-picker, remove, clear-all and upload events, every file
in the upload page's selection has one of the accepted MIME types
image/jpeg, image/png, image/webp, image/bmp — a file of any other type is
never added and therefore never uploaded. -/
theorem upload_selection_accepted (events : List UploadEvent) :
    ∀ f ∈ uploadRun events, f.type ∈ ACCEPTED_TYPES :=
  uploadFoldl_accepted events [] (by intro f hf; simp at hf)

/-- Witness for `upload_selection_accepted` at a concrete drop event. -/
theorem upload_selection_accepted_witness :
    (⟨"a.jpg", "image/png"⟩ : UFile) ∈
        uploadRun [UploadEvent.drop [⟨"a.jpg", "image/png"⟩]] ∧
      "image/png" ∈ ACCEPTED_TYPES :=
  ⟨by decide,
    upload_selection_accepted [UploadEvent.drop [⟨"a.jpg", "image/png"⟩]]
      ⟨"a.jpg", "image/png"⟩ (by decide)⟩

/-! ## Ranking monotonicity (C8) -/

/-- Counting with a predicate is monotone under pointwise implication. -/
theorem countP_le_of_imp {α : Type} (l : List α) (p q : α → Bool)
    (h : ∀ x ∈ l, p x = true → q x = true) :
    l.countP p ≤ l.countP q := by
  induction l with
  | nil => simp
  | cons a l ih =>
    simp only [List.countP_cons]
    have hrec := ih (fun x hx hp => h x (List.mem_cons_of_mem a hx) hp)
    by_cases hpa : p a = true
    · have hqa := h a (List.mem_cons_self a l) hpa
      rw [if_pos hpa, if_pos hqa]
      omega
    · rw [if_neg hpa]
      split <;> omega

/-- The single-subject score is monotone in the smile score when the smile
weight is non-negative. -/
theorem singleScore_smile_mono (w : Weights) (hw : 0 ≤ w.w_smile)
    (face : FaceRecord) (blur s s' : ℚ) (hs : s ≤ s') :
    singleScore w { face with smile_score := s } blur ≤
      singleScore w { face with smile_score := s' } blur := by
  unfold singleScore
  dsimp only
  have hmul : w.w_smile * s ≤ w.w_smile * s' := mul_le_mul_of_nonneg_left hs hw
  linarith

/-- C8: with a non-negative smile weight, increasing only the smile score of
a single-subject photo (holding its other signals and every other photo
fixed) never increases the number of unchanged photos ranked strictly ahead
of it, i.e. it never moves to a lower rank position relative to the photos
whose signals are unchanged. -/
theorem single_smile_rank_monotone (w : Weights) (hw : 0 ≤ w.w_smile)
    (face : FaceRecord) (blur s s' : ℚ) (hs : s ≤ s')
    (others : List (String × ℚ)) (fname : String) :
    rankPosition others
        (fname, singleScore w { face with smile_score := s' } blur) ≤
      rankPosition others
        (fname, singleScore w { face with smile_score := s } blur) := by
  have hmono := singleScore_smile_mono w hw face blur s s' hs
  unfold rankPosition
  refine countP_le_of_imp others _ _ (fun q hq hpq => ?_)
  simp only [decide_eq_true_iff] at hpq ⊢
  unfold ranksAhead at hpq ⊢
  dsimp only at hpq ⊢
  rcases hpq with hlt | ⟨heq, hname⟩
  · exact Or.inl (lt_of_le_of_lt hmono hlt)
  · rcases lt_or_eq_of_le hmono with hlt2 | heq2
    · exact Or.inl (by rw [heq]; exact hlt2)
    · exact Or.inr ⟨by rw [heq, ← heq2], hname⟩

/-- Witness for `single_smile_rank_monotone` at concrete weights, faces and
pool. -/
theorem single_smile_rank_monotone_witness :
    (0 : ℚ) ≤ (⟨1, 1, 1, 1, 1/2, 1/2⟩ : Weights).w_smile ∧ (0 : ℚ) ≤ 1 ∧
      rankPosition [("b.jpg", 2)]
          ("a.jpg", singleScore ⟨1, 1, 1, 1, 1/2, 1/2⟩
            { (⟨0, [], 0, 0, 0, 0⟩ : FaceRecord) with smile_score := 1 } 0) ≤
        rankPosition [("b.jpg", 2)]
          ("a.jpg", singleScore ⟨1, 1, 1, 1, 1/2, 1/2⟩
            { (⟨0, [], 0, 0, 0, 0⟩ : FaceRecord) with smile_score := 0 } 0) :=
  ⟨by norm_num, by norm_num,
    single_smile_rank_monotone ⟨1, 1, 1, 1, 1/2, 1/2⟩ (by norm_num)
      ⟨0, [], 0, 0, 0, 0⟩ 0 0 1 (by norm_num) [("b.jpg", 2)] "a.jpg"⟩

/-! ## Ranker output shape (C2) -/

/-- Unfolding equation for `rank`. -/
theorem rank_eq (w : Weights) (meta : List ImageMetadata)
    (members : List (String × ℕ)) (top_k : ℕ) :
    rank w meta members top_k =
      (List.insertionSort rankLE
        ((meta.filter
          (fun img => img.faces.any (isTargetFace members img.filename))).map
          (fun img => (img.filename, photoScore w img)))).take top_k := rfl

/-- C2: for every album metadata, target member set and `top_k`, `rank`
returns a list of (photo, score) pairs sorted in descending order of score,
with equal scores ordered by filename ascending, of length at most
`top_k`. -/
theorem rank_sorted_and_bounded (w : Weights) (meta : List ImageMetadata)
    (members : List (String × ℕ)) (top_k : ℕ) :
    List.Sorted rankLE (rank w meta members top_k) ∧
      (rank w meta members top_k).length ≤ top_k := by
  rw [rank_eq]
  constructor
  · exact List.Pairwise.sublist (List.take_sublist _ _)
      (List.sorted_insertionSort rankLE _)
  · rw [List.length_take]
    exact min_le_left _ _

/-! ## Metadata-store sync (C3, C4) -/

/-- Unfolding equation for `sync`. -/
theorem sync_eq (extract : Extractor) (dir : List DirFile) (cache : Cache) :
    sync extract dir cache =
      { cache := (dir.map (syncFile extract cache)).map Prod.fst
      , updated := ((dir.map (syncFile extract cache)).filter Prod.snd).map
          (fun r => r.1.filename)
      , removed := ((cache.filter
          (fun e => !(dir.any (fun f => f.filename == e.filename)))).map
          ImageMetadata.filename)
      , extractions := (dir.map (syncFile extract cache)).countP Prod.snd } :=
  rfl

/-- The entry `syncFile` produces always carries the file's own filename and
current fingerprint, whether reused or freshly extracted. -/
theorem syncFile_filename (extract : Extractor) (cache : Cache) (f : DirFile) :
    (syncFile extract cache f).1.filename = f.filename ∧
      (syncFile extract cache f).1.fingerprint = f.fingerprint := by
  unfold syncFile
  cases hl : cacheLookup cache f.filename with
  | none => exact ⟨rfl, rfl⟩
  | some e =>
    have hname : e.filename = f.filename := by
      unfold cacheLookup at hl
      have hp := List.find?_some hl
      exact eq_of_beq hp
    dsimp only
    by_cases hfp : (e.fingerprint == f.fingerprint) = true
    · rw [if_pos hfp]
      exact ⟨hname, eq_of_beq hfp⟩
    · rw [if_neg hfp]
      exact ⟨rfl, rfl⟩

/-- Lookup by filename commutes with mapping a filename-preserving
function over the directory listing. -/
theorem find?_map_filename (g : DirFile → ImageMetadata)
    (hg : ∀ x, (g x).filename = x.filename) (dir : List DirFile) (n : String) :
    (dir.map g).find? (fun e => e.filename == n) =
      (dir.find? (fun x => x.filename == n)).map g := by
  induction dir with
  | nil => rfl
  | cons d ds ih =>
    simp only [List.map_cons, List.find?_cons, hg d]
    cases hb : (d.filename == n) with
    | true => simp
    | false => simpa using ih

/-- With duplicate-free filenames, `find?` by a member's filename returns
exactly that member. -/
theorem find?_of_nodup (dir : List DirFile) (f : DirFile)
    (hnd : (dir.map DirFile.filename).Nodup) (hmem : f ∈ dir) :
    dir.find? (fun x => x.filename == f.filename) = some f := by
  induction dir with
  | nil => cases hmem
  | cons d ds ih =>
    have hnd2 : d.filename ∉ ds.map DirFile.filename ∧
        (ds.map DirFile.filename).Nodup := by
      rw [List.map_cons, List.nodup_cons] at hnd
      exact hnd
    rcases List.mem_cons.mp hmem with rfl | hmem2
    · simp [List.find?_cons]
    · have hd : (d.filename == f.filename) = false := by
        rw [beq_eq_false_iff_ne]
        intro he
        exact hnd2.1 (he ▸ List.mem_map_of_mem DirFile.filename hmem2)
      simp only [List.find?_cons, hd]
      exact ih hnd2.2 hmem2

/-- The cache a sync produces is the directory listing mapped through the
per-file sync step. -/
theorem sync_cache_eq (extract : Extractor) (dir : List DirFile)
    (cache : Cache) :
    (sync extract dir cache).cache =
      dir.map (fun f => (syncFile extract cache f).1) := by
  rw [sync_eq]
  exact List.map_map Prod.fst (syncFile extract cache) dir

/-- Looking a present file up in the freshly synced cache returns its new
entry (given duplicate-free filenames). -/
theorem cacheLookup_sync (extract : Extractor) (dir : List DirFile)
    (cache : Cache) (hnd : (dir.map DirFile.filename).Nodup) (f : DirFile)
    (hmem : f ∈ dir) :
    cacheLookup (sync extract dir cache).cache f.filename =
      some ((syncFile extract cache f).1) := by
  rw [sync_cache_eq]
  unfold cacheLookup
  rw [find?_map_filename _ (fun x => (syncFile_filename extract cache x).1)
      dir f.filename,
    find?_of_nodup dir f hnd hmem]
  rfl

/-- When the cache holds an entry for the file with a matching fingerprint,
`syncFile` reuses it unchanged and performs no extraction. -/
theorem syncFile_reuse (extract : Extractor) (cache : Cache) (f : DirFile)
    (e : ImageMetadata) (hl : cacheLookup cache f.filename = some e)
    (hfp : e.fingerprint = f.fingerprint) :
    syncFile extract cache f = (e, false) := by
  unfold syncFile
  rw [hl]
  dsimp only
  rw [hfp]
  simp

/-- When the cache holds an entry for the file with a different fingerprint,
`syncFile` re-extracts. -/
theorem syncFile_stale (extract : Extractor) (cache : Cache) (f : DirFile)
    (e : ImageMetadata) (hl : cacheLookup cache f.filename = some e)
    (hfp : e.fingerprint ≠ f.fingerprint) :
    syncFile extract cache f = (freshEntry extract f, true) := by
  unfold syncFile
  rw [hl]
  dsimp only
  simp [hfp]

/-- After a sync, every present file's `syncFile` step against the new cache
is a pure reuse. -/
theorem syncFile_after_sync (extract : Extractor) (dir : List DirFile)
    (cache : Cache) (hnd : (dir.map DirFile.filename).Nodup) (f : DirFile)
    (hmem : f ∈ dir) :
    syncFile extract (sync extract dir cache).cache f =
      ((syncFile extract cache f).1, false) :=
  syncFile_reuse extract _ f _ (cacheLookup_sync extract dir cache hnd f hmem)
    (syncFile_filename extract cache f).2

/-- C3: sync is idempotent on an unchanged directory — the second run leaves
the persisted cache identical, performs zero quality-signal re-extractions,
and updates no entry. -/
theorem sync_idempotent (extract : Extractor) (dir : List DirFile)
    (cache : Cache) (hnd : (dir.map DirFile.filename).Nodup) :
    (sync extract dir (sync extract dir cache).cache).cache =
        (sync extract dir cache).cache ∧
      (sync extract dir (sync extract dir cache).cache).extractions = 0 ∧
      (sync extract dir (sync extract dir cache).cache).updated = [] := by
  have hmap : dir.map (syncFile extract (sync extract dir cache).cache) =
      dir.map (fun f => ((syncFile extract cache f).1, false)) :=
    List.map_congr_left (fun f hf => syncFile_after_sync extract dir cache hnd f hf)
  have hfilter : (dir.map
      (fun f => ((syncFile extract cache f).1, false))).filter Prod.snd = [] := by
    rw [List.filter_eq_nil_iff]
    intro a ha
    rcases List.mem_map.mp ha with ⟨f, _, rfl⟩
    simp
  refine ⟨?_, ?_, ?_⟩
  · have h1 : (sync extract dir (sync extract dir cache).cache).cache =
        dir.map
          (fun f => (syncFile extract (sync extract dir cache).cache f).1) :=
      sync_cache_eq extract dir _
    have h2 : ∀ f ∈ dir,
        (syncFile extract (sync extract dir cache).cache f).1 =
          (syncFile extract cache f).1 := fun f hf => by
      rw [syncFile_after_sync extract dir cache hnd f hf]
    rw [h1, List.map_congr_left h2]
    exact (sync_cache_eq extract dir cache).symm
  · show (dir.map (syncFile extract (sync extract dir cache).cache)).countP
        Prod.snd = 0
    rw [hmap, List.countP_eq_zero]
    intro a ha
    rcases List.mem_map.mp ha with ⟨f, _, rfl⟩
    simp
  · show ((dir.map (syncFile extract (sync extract dir cache).cache)).filter
        Prod.snd).map (fun r => r.1.filename) = []
    rw [hmap, hfilter]
    rfl

/-- Witness for `sync_idempotent` on a one-file directory. -/
theorem sync_idempotent_witness :
    (([⟨"a.jpg", "fp1", 0⟩] : List DirFile).map DirFile.filename).Nodup ∧
      ((sync (fun _ => (0, [])) [⟨"a.jpg", "fp1", 0⟩]
            (sync (fun _ => (0, [])) [⟨"a.jpg", "fp1", 0⟩] []).cache).cache =
          (sync (fun _ => (0, [])) [⟨"a.jpg", "fp1", 0⟩] []).cache ∧
        (sync (fun _ => (0, [])) [⟨"a.jpg", "fp1", 0⟩]
            (sync (fun _ => (0, [])) [⟨"a.jpg", "fp1", 0⟩] []).cache).extractions
          = 0 ∧
        (sync (fun _ => (0, [])) [⟨"a.jpg", "fp1", 0⟩]
            (sync (fun _ => (0, [])) [⟨"a.jpg", "fp1", 0⟩] []).cache).updated
          = []) :=
  ⟨by decide,
    sync_idempotent (fun _ => (0, [])) [⟨"a.jpg", "fp1", 0⟩] [] (by decide)⟩

/-- C4: when exactly one file's content, and hence fingerprint, changes
between two syncs of the same album (same filenames in the same order), the
second sync re-extracts exactly that file — one updated entry, one
extraction, nothing removed — replacing that file's cache entry with a
fresh extraction, while the cached entry of every other filename is left
unchanged. -/
theorem sync_incremental (extract : Extractor) (pre post : List DirFile)
    (f f' : DirFile) (cache0 : Cache)
    (hname : f'.filename = f.filename)
    (hfp : f'.fingerprint ≠ f.fingerprint)
    (hnd : ((pre ++ f :: post).map DirFile.filename).Nodup) :
    (sync extract (pre ++ f' :: post)
        (sync extract (pre ++ f :: post) cache0).cache).updated =
      [f.filename] ∧
    (sync extract (pre ++ f' :: post)
        (sync extract (pre ++ f :: post) cache0).cache).extractions = 1 ∧
    (sync extract (pre ++ f' :: post)
        (sync extract (pre ++ f :: post) cache0).cache).removed = [] ∧
    cacheLookup (sync extract (pre ++ f' :: post)
        (sync extract (pre ++ f :: post) cache0).cache).cache f.filename =
      some (freshEntry extract f') ∧
    ∀ n, n ≠ f.filename →
      cacheLookup (sync extract (pre ++ f' :: post)
          (sync extract (pre ++ f :: post) cache0).cache).cache n =
        cacheLookup (sync extract (pre ++ f :: post) cache0).cache n := by
  set d1 := pre ++ f :: post with hd1
  set d2 := pre ++ f' :: post with hd2
  set c1 := (sync extract d1 cache0).cache with hc1
  have hmemf : f ∈ d1 := by
    rw [hd1]; exact List.mem_append_right pre (List.mem_cons_self f post)
  have hmemf' : f' ∈ d2 := by
    rw [hd2]; exact List.mem_append_right pre (List.mem_cons_self f' post)
  have hnd2 : (d2.map DirFile.filename).Nodup := by
    have he : d2.map DirFile.filename = d1.map DirFile.filename := by
      rw [hd1, hd2]
      simp [hname]
    rw [he]
    exact hnd
  have hA : ∀ x ∈ d1,
      syncFile extract c1 x = ((syncFile extract cache0 x).1, false) :=
    fun x hx => syncFile_after_sync extract d1 cache0 hnd x hx
  have hgf : cacheLookup c1 f'.filename =
      some ((syncFile extract cache0 f).1) := by
    rw [hname]
    exact cacheLookup_sync extract d1 cache0 hnd f hmemf
  have hMid : syncFile extract c1 f' = (freshEntry extract f', true) := by
    apply syncFile_stale extract c1 f' _ hgf
    rw [(syncFile_filename extract cache0 f).2]
    exact Ne.symm hfp
  have hpre_mem : ∀ x ∈ pre, x ∈ d1 := fun x hx => by
    rw [hd1]
    exact List.mem_append_left _ hx
  have hpost_mem : ∀ x ∈ post, x ∈ d1 := fun x hx => by
    rw [hd1]
    exact List.mem_append_right pre (List.mem_cons_of_mem f hx)
  have hmap2 : d2.map (syncFile extract c1) =
      pre.map (fun x => ((syncFile extract cache0 x).1, false)) ++
        (freshEntry extract f', true) ::
          post.map (fun x => ((syncFile extract cache0 x).1, false)) := by
    rw [hd2, List.map_append, List.map_cons, hMid,
      List.map_congr_left (fun x hx => hA x (hpre_mem x hx)),
      List.map_congr_left (fun x hx => hA x (hpost_mem x hx))]
  have hzero : ∀ l : List DirFile,
      (l.map (fun x => ((syncFile extract cache0 x).1, false))).filter
        Prod.snd = [] := by
    intro l
    rw [List.filter_eq_nil_iff]
    intro a ha
    rcases List.mem_map.mp ha with ⟨x, _, rfl⟩
    simp
  have hzeroc : ∀ l : List DirFile,
      (l.map (fun x => ((syncFile extract cache0 x).1, false))).countP
        Prod.snd = 0 := by
    intro l
    rw [List.countP_eq_zero]
    intro a ha
    rcases List.mem_map.mp ha with ⟨x, _, rfl⟩
    simp
  refine ⟨?_, ?_, ?_, ?_, ?_⟩
  · show ((d2.map (syncFile extract c1)).filter Prod.snd).map
        (fun r => r.1.filename) = [f.filename]
    rw [hmap2, List.filter_append, hzero pre,
      List.filter_cons_of_pos rfl, hzero post]
    simp [freshEntry, hname]
  · show (d2.map (syncFile extract c1)).countP Prod.snd = 1
    rw [hmap2, List.countP_append, List.countP_cons, hzeroc pre, hzeroc post]
    simp
  · show ((c1.filter
        (fun e => !(d2.any (fun x => x.filename == e.filename)))).map
        ImageMetadata.filename) = []
    have hfil : c1.filter
        (fun e => !(d2.any (fun x => x.filename == e.filename))) = [] := by
      rw [List.filter_eq_nil_iff]
      intro e he
      rw [hc1, sync_cache_eq] at he
      rcases List.mem_map.mp he with ⟨x, hx, rfl⟩
      intro hcontra
      have hany : d2.any
          (fun x2 => x2.filename ==
            ((syncFile extract cache0 x).1).filename) = true := by
        rw [(syncFile_filename extract cache0 x).1, List.any_eq_true]
        have hx1 : x ∈ pre ++ f :: post := by
          rw [hd1] at hx
          exact hx
        rcases List.mem_append.mp hx1 with hxpre | hxmid
        · refine ⟨x, ?_, by simp⟩
          rw [hd2]
          exact List.mem_append_left _ hxpre
        · rcases List.mem_cons.mp hxmid with rfl | hxpost
          · exact ⟨f', hmemf', by simp [hname]⟩
          · refine ⟨x, ?_, by simp⟩
            rw [hd2]
            exact List.mem_append_right pre (List.mem_cons_of_mem f' hxpost)
      rw [hany] at hcontra
      simp at hcontra
    rw [hfil]
    rfl
  · have h := cacheLookup_sync extract d2 c1 hnd2 f' hmemf'
    rw [hname, hMid] at h
    exact h
  · intro n hn
    have hc1m : c1 = d1.map (fun x => (syncFile extract cache0 x).1) :=
      hc1.trans (sync_cache_eq extract d1 cache0)
    have hl2 : cacheLookup (sync extract d2 c1).cache n =
        (d2.find? (fun x => x.filename == n)).map
          (fun x => (syncFile extract c1 x).1) := by
      rw [sync_cache_eq]
      unfold cacheLookup
      exact find?_map_filename _ (fun x => (syncFile_filename extract c1 x).1)
        d2 n
    have hl1 : cacheLookup c1 n =
        (d1.find? (fun x => x.filename == n)).map
          (fun x => (syncFile extract cache0 x).1) := by
      rw [hc1m]
      unfold cacheLookup
      exact find?_map_filename _
        (fun x => (syncFile_filename extract cache0 x).1) d1 n
    have hpf' : ¬((fun x => x.filename == n) f' = true) := by
      simp only [beq_iff_eq, hname]
      exact Ne.symm hn
    have hpf : ¬((fun x => x.filename == n) f = true) := by
      simp only [beq_iff_eq]
      exact Ne.symm hn
    have hfind2 : d2.find? (fun x => x.filename == n) =
        (pre.find? (fun x => x.filename == n)).or
          (post.find? (fun x => x.filename == n)) := by
      rw [hd2, List.find?_append, List.find?_cons_of_neg post hpf']
    have hfind1 : d1.find? (fun x => x.filename == n) =
        (pre.find? (fun x => x.filename == n)).or
          (post.find? (fun x => x.filename == n)) := by
      rw [hd1, List.find?_append, List.find?_cons_of_neg post hpf]
    rw [hl2, hl1, hfind2, hfind1]
    cases hp : pre.find? (fun x => x.filename == n) with
    | some x =>
      rw [Option.or_some, Option.map_some', Option.map_some']
      have hx : x ∈ d1 := by
        rw [hd1]
        exact List.mem_append_left _ (List.mem_of_find?_eq_some hp)
      rw [hA x hx]
    | none =>
      rw [Option.none_or]
      cases hq : post.find? (fun x => x.filename == n) with
      | some x =>
        rw [Option.map_some', Option.map_some']
        have hx : x ∈ d1 := by
          rw [hd1]
          exact List.mem_append_right pre
            (List.mem_cons_of_mem f (List.mem_of_find?_eq_some hq))
        rw [hA x hx]
      | none => rfl

/-- Witness for `sync_incremental` on a one-file directory whose only file
changes fingerprint. -/
theorem sync_incremental_witness :
    (⟨"a.jpg", "fp2", 1⟩ : DirFile).filename =
        (⟨"a.jpg", "fp1", 0⟩ : DirFile).filename ∧
      (⟨"a.jpg", "fp2", 1⟩ : DirFile).fingerprint ≠
        (⟨"a.jpg", "fp1", 0⟩ : DirFile).fingerprint ∧
      (([] ++ (⟨"a.jpg", "fp1", 0⟩ : DirFile) :: []).map
        DirFile.filename).Nodup ∧
      (sync (fun d => ((d.content : ℚ), [])) ([] ++ ⟨"a.jpg", "fp2", 1⟩ :: [])
          (sync (fun d => ((d.content : ℚ), []))
            ([] ++ ⟨"a.jpg", "fp1", 0⟩ :: []) []).cache).updated =
        ["a.jpg"] ∧
      cacheLookup (sync (fun d => ((d.content : ℚ), []))
          ([] ++ ⟨"a.jpg", "fp2", 1⟩ :: [])
          (sync (fun d => ((d.content : ℚ), []))
            ([] ++ ⟨"a.jpg", "fp1", 0⟩ :: []) []).cache).cache "b.jpg" =
        cacheLookup (sync (fun d => ((d.content : ℚ), []))
          ([] ++ ⟨"a.jpg", "fp1", 0⟩ :: []) []).cache "b.jpg" := by
  have h := sync_incremental (fun d => ((d.content : ℚ), [])) [] []
    ⟨"a.jpg", "fp1", 0⟩ ⟨"a.jpg", "fp2", 1⟩ [] rfl (by decide) (by decide)
  exact ⟨rfl, by decide, by decide, h.1, h.2.2.2.2 "b.jpg" (by decide)⟩

/-! ## Identity matcher: find (C1) -/

/-- Membership in the scored candidate list characterised by creation index
and similarity. -/
theorem mem_scoreAll (query : List ℚ) (cands : List Candidate) (s : Scored) :
    s ∈ scoreAll query cands ↔
      cands[s.idx]? = some s.cand ∧
        s.sim = similarity query s.cand.embedding := by
  unfold scoreAll
  rw [List.mem_map]
  constructor
  · rintro ⟨p, hp, rfl⟩
    exact ⟨List.mem_enum_iff_getElem?.mp hp, rfl⟩
  · rintro ⟨h1, h2⟩
    cases s with
    | mk idx cand sim =>
      refine ⟨(idx, cand), ?_, ?_⟩
      · exact List.mem_enum_iff_getElem?.mpr h1
      · dsimp only at h2 ⊢
        rw [h2]

/-- Every candidate contributes an entry to the scored list. -/
theorem scoreAll_complete (query : List ℚ) (cands : List Candidate)
    (c : Candidate) (hc : c ∈ cands) :
    ∃ s ∈ scoreAll query cands,
      s.cand = c ∧ s.sim = similarity query c.embedding := by
  rcases List.mem_iff_getElem?.mp hc with ⟨i, hi⟩
  exact ⟨{ idx := i, cand := c, sim := similarity query c.embedding },
    (mem_scoreAll query cands _).mpr ⟨hi, rfl⟩, rfl, rfl⟩

/-- The candidate order implies a similarity inequality. -/
theorem candLE_sim_le (x y : Scored) (h : candLE x y) : y.sim ≤ x.sim := by
  unfold candLE at h
  rcases h with h | ⟨h, _⟩
  · exact le_of_lt h
  · exact le_of_eq h.symm

/-- The candidate order is reflexive. -/
theorem candLE_refl (x : Scored) : candLE x x :=
  Or.inr ⟨rfl, le_refl _⟩

/-- Scoring pairs every candidate with exactly one entry. -/
theorem scoreAll_length (query : List ℚ) (cands : List Candidate) :
    (scoreAll query cands).length = cands.length := by
  unfold scoreAll
  rw [List.length_map, List.enum_length]

/-- C1: `find` searches the whole candidate pool (the union of global people
and per-album cluster representatives, listed in creation order): it reports
a confident match exactly when some candidate's similarity reaches the
threshold, in which case the matched person is a highest-similarity
candidate and, among those, the earliest-created; otherwise it reports
`matched = false` together with the `top_k` highest-similarity candidates:
exactly `min top_k (number of candidates)` of them are returned, drawn from
the scored candidate pool, sorted by descending similarity with ties broken
in favour of the earliest-created identity, and they dominate (in that
order) every candidate left out. -/
theorem find_spec (query : List ℚ) (threshold : ℚ) (top_k : ℕ)
    (cands : List Candidate) :
    ((find query threshold top_k cands).matched = true ↔
        ∃ c ∈ cands, threshold ≤ similarity query c.embedding) ∧
      ((find query threshold top_k cands).matched = true →
        ∃ s : Scored,
          (find query threshold top_k cands).person = some s.cand ∧
            cands[s.idx]? = some s.cand ∧
            s.sim = similarity query s.cand.embedding ∧
            (∀ c ∈ cands, similarity query c.embedding ≤ s.sim) ∧
            (∀ j, (hj : j < cands.length) →
              similarity query (cands.get ⟨j, hj⟩).embedding = s.sim →
                s.idx ≤ j)) ∧
      ((find query threshold top_k cands).matched = false →
        (find query threshold top_k cands).candidates.length =
            min top_k cands.length ∧
          List.Sorted candLE (find query threshold top_k cands).candidates ∧
          ∃ rest : List Scored,
            ((find query threshold top_k cands).candidates ++ rest).Perm
                (scoreAll query cands) ∧
              ∀ x ∈ (find query threshold top_k cands).candidates,
                ∀ y ∈ rest, candLE x y) := by
  cases hr : List.insertionSort candLE (scoreAll query cands) with
  | nil =>
    have hperm := List.perm_insertionSort candLE (scoreAll query cands)
    rw [hr] at hperm
    have hnil : scoreAll query cands = [] := hperm.symm.eq_nil
    have hcnil : cands = [] := by
      unfold scoreAll at hnil
      rw [List.map_eq_nil_iff, List.enum_eq_nil] at hnil
      exact hnil
    have hfind : find query threshold top_k cands =
        { matched := false, person := none, best_similarity := 0
        , candidates := [] } := by
      unfold find
      rw [hr]
    subst hcnil
    refine ⟨?_, ?_, ?_⟩
    · rw [hfind]
      simp
    · intro h
      rw [hfind] at h
      cases h
    · intro _
      rw [hfind]
      refine ⟨by simp, by simp, [], ?_, by simp⟩
      rw [hnil]
      rfl
  | cons best rest =>
    have hsorted := List.sorted_insertionSort candLE (scoreAll query cands)
    rw [hr] at hsorted
    have hperm := List.perm_insertionSort candLE (scoreAll query cands)
    rw [hr] at hperm
    have hbest_mem : best ∈ scoreAll query cands :=
      hperm.mem_iff.mp (List.mem_cons_self best rest)
    have hbest_le : ∀ s ∈ scoreAll query cands, candLE best s := by
      intro s hs
      rcases List.mem_cons.mp (hperm.mem_iff.mpr hs) with rfl | hs2
      · exact candLE_refl s
      · exact List.rel_of_sorted_cons hsorted s hs2
    have hbest_props := (mem_scoreAll query cands best).mp hbest_mem
    have hmax : ∀ c ∈ cands, similarity query c.embedding ≤ best.sim := by
      intro c hc
      rcases scoreAll_complete query cands c hc with ⟨s, hs, hsc, hss⟩
      have := candLE_sim_le best s (hbest_le s hs)
      rw [hss] at this
      exact this
    have hearliest : ∀ j, (hj : j < cands.length) →
        similarity query (cands.get ⟨j, hj⟩).embedding = best.sim →
          best.idx ≤ j := by
      intro j hj hsim
      have hs : Scored.mk j (cands.get ⟨j, hj⟩)
          (similarity query (cands.get ⟨j, hj⟩).embedding) ∈
          scoreAll query cands := by
        refine (mem_scoreAll query cands _).mpr ⟨?_, rfl⟩
        exact List.getElem?_eq_getElem hj
      have hle := hbest_le _ hs
      unfold candLE at hle
      rcases hle with hlt | ⟨_, hidx⟩
      · dsimp only at hlt
        rw [hsim] at hlt
        exact absurd hlt (lt_irrefl _)
      · exact hidx
    by_cases hth : threshold ≤ best.sim
    · have hfind : find query threshold top_k cands =
          { matched := true, person := some best.cand
          , best_similarity := best.sim
          , candidates := (best :: rest).take top_k } := by
        unfold find
        rw [hr]
        dsimp only
        rw [if_pos hth]
      refine ⟨?_, ?_, ?_⟩
      · rw [hfind]
        simp only [true_iff]
        refine ⟨best.cand, ?_, ?_⟩
        · exact List.mem_iff_getElem?.mpr ⟨best.idx, hbest_props.1⟩
        · rw [← hbest_props.2]
          exact hth
      · intro _
        refine ⟨best, ?_, hbest_props.1, hbest_props.2, hmax, hearliest⟩
        rw [hfind]
      · intro h
        rw [hfind] at h
        cases h
    · have hfind : find query threshold top_k cands =
          { matched := false, person := none
          , best_similarity := best.sim
          , candidates := (best :: rest).take top_k } := by
        unfold find
        rw [hr]
        dsimp only
        rw [if_neg hth]
      refine ⟨?_, ?_, ?_⟩
      · rw [hfind]
        constructor
        · intro h
          cases h
        · rintro ⟨c, hc, hcth⟩
          exact absurd (le_trans hcth (hmax c hc)) hth
      · intro h
        rw [hfind] at h
        cases h
      · intro _
        rw [hfind]
        refine ⟨?_, ?_, (best :: rest).drop top_k, ?_, ?_⟩
        · rw [List.length_take, hperm.length_eq, scoreAll_length]
        · exact List.Pairwise.sublist (List.take_sublist _ _) hsorted
        · rw [List.take_append_drop]
          exact hperm
        · have hp := hsorted
          rw [← List.take_append_drop top_k (best :: rest)] at hp
          exact (List.pairwise_append.mp hp).2.2

end PhotoRanker
